import Mathlib

/-!
Verification of the `parallel` job-execution engine's error and input modules.

Shallow embedding of:
* `src/arguments/errors.rs` — the `FileErr` and `ParseErr` error types and the
  fatal configuration-error handler `ParseErr::handle`;
* `src/input_iterator/mod.rs` — the input iterator's error type;
* the input lock and the input-order result collector, modelled from the
  design document where the repository files are not available.

Strings and byte buffers are modelled as `List Char`; machine I/O is modelled
as an explicit trace of effects.
-/

namespace Parallel

/-- Text: Rust `String` / `&str` / byte buffers, modelled as lists of characters. -/
abbrev Str := List Char

/-- Rust `Debug` formatting of a `PathBuf` (the `{:?}` format): the path text
between double quotes (escaping of special characters inside the path elided). -/
def pathDebug (p : Str) : Str := '"' :: (p ++ ['"'])

/-- `FileErr` (src/arguments/errors.rs, lines 8-12): all the possible errors
that may happen when working with files. Each variant carries the file path
(`PathBuf`) and the underlying `io::Error`, modelled by its display text. -/
inductive FileErr where
  | Open (path : Str) (cause : Str)
  | Read (path : Str) (cause : Str)
  | Write (path : Str) (cause : Str)
deriving DecidableEq

/-- The `fmt::Display` implementation for `FileErr`
(src/arguments/errors.rs, lines 14-22). -/
def fileErrDisplay : FileErr → Str
  | .Open path cause => "unable to open ".toList ++ pathDebug path ++ ": ".toList ++ cause
  | .Read path cause => "unable to read ".toList ++ pathDebug path ++ ": ".toList ++ cause
  | .Write path cause => "unable to write ".toList ++ pathDebug path ++ ": ".toList ++ cause

/-- The path a `FileErr` is tagged with. -/
def fileErrPath : FileErr → Str
  | .Open path _ => path
  | .Read path _ => path
  | .Write path _ => path

/-- The underlying I/O error a `FileErr` is tagged with. -/
def fileErrCause : FileErr → Str
  | .Open _ cause => cause
  | .Read _ cause => cause
  | .Write _ cause => cause

/-- `ParseErr` (src/arguments/errors.rs, lines 26-61): the error type of the
argument module, one tagged variant per validation failure, carrying the
offending argument's index (`usize`) or the offending value itself. -/
inductive ParseErr where
  | DelayNaN (index : Nat)
  | DelayNoValue
  | File (ferr : FileErr)
  | JoblogNoValue
  | JobsNaN (value : Str)
  | JobsNoValue
  | InvalidArgument (index : Nat)
  | MaxArgsNaN (index : Nat)
  | MaxArgsNoValue
  | MemInvalid (index : Nat)
  | MemNoValue
  | NoArguments
  | NonTerminated (command : Str)
  | RedirFile (path : Str)
  | TimeoutNaN (index : Nat)
  | TimeoutNoValue
  | WorkDirNoValue

/-- `From<FileErr> for ParseErr` (src/arguments/errors.rs, lines 63-65). -/
def fromFileErr (ferr : FileErr) : ParseErr := ParseErr.File ferr

/-- The bytes the match arm of `ParseErr::handle` writes to the locked
standard error for each variant (src/arguments/errors.rs, lines 75-127).
`writeln!` appends a newline; `stderr.write(b"...\n")` has it in the bytes.
The five variants that store an index read `arguments[index]`, which panics
when the index is out of bounds: that case is `none`. -/
def errMessage : ParseErr → List Str → Option Str
  | .File ferr, _ => some (fileErrDisplay ferr ++ ['\n'])
  | .DelayNaN index, arguments =>
      (arguments[index]?).map
        (fun a => "delay parameter, '".toList ++ a ++ "', is not a number.\n".toList)
  | .DelayNoValue, _ => some "no delay parameter was defined.\n".toList
  | .JoblogNoValue, _ => some "no joblog parameter was defined.\n".toList
  | .JobsNaN value, _ =>
      some ("jobs parameter, '".toList ++ value ++ "', is not a number.\n".toList)
  | .JobsNoValue, _ => some "no jobs parameter was defined.\n".toList
  | .MaxArgsNaN index, arguments =>
      (arguments[index]?).map
        (fun a => "groups parameter, '".toList ++ a ++ "', is not a number.\n".toList)
  | .MaxArgsNoValue, _ => some "no groups parameter was defined.\n".toList
  | .MemNoValue, _ => some "no memory parameter was defined.\n".toList
  | .MemInvalid index, arguments =>
      (arguments[index]?).map (fun a => "invalid memory value: ".toList ++ a ++ ['\n'])
  | .InvalidArgument index, arguments =>
      (arguments[index]?).map (fun a => "invalid argument: ".toList ++ a ++ ['\n'])
  | .NoArguments, _ => some "no input arguments were given.\n".toList
  | .NonTerminated command, _ =>
      some ("command is not properly terminated:\n  $ ".toList ++ command ++
        "\nTip: Try using the --quote parameter to escape your command\n".toList)
  | .RedirFile path, _ =>
      some ("an error occurred while redirecting file: ".toList ++ pathDebug path ++ ['\n'])
  | .TimeoutNaN index, arguments =>
      (arguments[index]?).map (fun a => "invalid timeout value: ".toList ++ a ++ ['\n'])
  | .TimeoutNoValue, _ => some "no timeout parameter was defined.\n".toList
  | .WorkDirNoValue, _ => some "no workdir parameter was defined.\n".toList

/-- One observable effect of `ParseErr::handle`: a write to the locked
standard error or to the locked standard output (`ok` records the write's
success, which the code discards with `let _ = ...`), or process exit. -/
inductive Effect where
  | WriteErr (s : Str) (ok : Bool)
  | WriteOut (s : Str) (ok : Bool)
  | Exit (code : Nat)
deriving DecidableEq

/-- The banner `ParseErr::handle` writes to standard error before the match. -/
def header : Str := "parallel: parsing error: ".toList

/-- The usage hint `ParseErr::handle` writes to standard output before exiting. -/
def usageHint : Str := "For help on command-line usage, execute `parallel -h`\n".toList

/-- `ParseErr::handle` (src/arguments/errors.rs, lines 68-130) as the trace of
its effects. `wr k` gives the success of the k-th write; every write result is
discarded by the code (`let _ = ...`), so `wr` is recorded in the trace but
never branched on. When the match arm indexes `arguments` out of bounds the
function panics after the banner write: the trace stops there and the second
component (panicked) is `true`. Otherwise the trace ends in `exit(1)` and the
function never returns. -/
def handle (e : ParseErr) (arguments : List Str) (wr : Nat → Bool) :
    List Effect × Bool :=
  match errMessage e arguments with
  | none => ([Effect.WriteErr header (wr 0)], true)
  | some m =>
      ([Effect.WriteErr header (wr 0), Effect.WriteErr m (wr 1),
        Effect.WriteOut usageHint (wr 2), Effect.Exit 1], false)

/-- The offending-index precondition: each variant that stores the index of
the offending argument has that index within the slice passed to `handle`. -/
def idxOk : ParseErr → List Str → Prop
  | .DelayNaN index, arguments => index < arguments.length
  | .MaxArgsNaN index, arguments => index < arguments.length
  | .MemInvalid index, arguments => index < arguments.length
  | .InvalidArgument index, arguments => index < arguments.length
  | .TimeoutNaN index, arguments => index < arguments.length
  | _, _ => True

/-- Under the offending-index precondition, every variant renders a message. -/
theorem errMessage_of_idxOk (e : ParseErr) (arguments : List Str)
    (h : idxOk e arguments) : ∃ m, errMessage e arguments = some m := by
  cases e <;>
    simp only [idxOk] at h <;>
    simp [errMessage, List.getElem?_eq_getElem, h]

/-- The shape of an effect with the recorded write outcome erased. -/
def effectShape : Effect → Str ⊕ Str ⊕ Nat
  | .WriteErr s _ => Sum.inl s
  | .WriteOut s _ => Sum.inr (Sum.inl s)
  | .Exit code => Sum.inr (Sum.inr code)

/-- C1: for every `ParseErr` value with the offending-index precondition of
its variant satisfied, `ParseErr::handle` first writes the error message to
standard error (the banner, then the variant's message), then writes the
usage hint to standard output, then terminates the process with exit code 1;
it never returns — the `exit 1` effect is the last element of the trace and
no panic occurs. -/
theorem handle_stderr_then_usage_then_exit_one (e : ParseErr)
    (arguments : List Str) (wr : Nat → Bool) (h : idxOk e arguments) :
    ∃ m, errMessage e arguments = some m ∧
      handle e arguments wr =
        ([Effect.WriteErr header (wr 0), Effect.WriteErr m (wr 1),
          Effect.WriteOut usageHint (wr 2), Effect.Exit 1], false) := by
  obtain ⟨m, hm⟩ := errMessage_of_idxOk e arguments h
  exact ⟨m, hm, by simp [handle, hm]⟩

/-- Witness for C1 at a concrete error and argument slice. -/
theorem handle_stderr_then_usage_then_exit_one_witness :
    ∃ m, errMessage (ParseErr.DelayNaN 0) ["5s".toList] = some m ∧
      handle (ParseErr.DelayNaN 0) ["5s".toList] (fun _ => true) =
        ([Effect.WriteErr header true, Effect.WriteErr m true,
          Effect.WriteOut usageHint true, Effect.Exit 1], false) :=
  handle_stderr_then_usage_then_exit_one (ParseErr.DelayNaN 0) ["5s".toList]
    (fun _ => true) (by simp [idxOk])

/-- `handle` panics exactly when no message can be rendered. -/
theorem handle_panicked_iff (e : ParseErr) (arguments : List Str)
    (wr : Nat → Bool) :
    (handle e arguments wr).2 = true ↔ errMessage e arguments = none := by
  cases h : errMessage e arguments <;> simp [handle, h]

/-- C9: `ParseErr::handle` indexes the arguments slice with the stored index
for `DelayNaN`, `MaxArgsNaN`, `MemInvalid`, `InvalidArgument` and
`TimeoutNaN`, and panics exactly when that stored index is not less than the
length of the arguments slice; for every other variant, and whenever every
stored index is in bounds, no panic occurs. -/
theorem handle_panics_iff_index_out_of_bounds (e : ParseErr)
    (arguments : List Str) (wr : Nat → Bool) :
    (handle e arguments wr).2 = true ↔
      ∃ index, arguments.length ≤ index ∧
        (e = ParseErr.DelayNaN index ∨ e = ParseErr.MaxArgsNaN index ∨
         e = ParseErr.MemInvalid index ∨ e = ParseErr.InvalidArgument index ∨
         e = ParseErr.TimeoutNaN index) := by
  rw [handle_panicked_iff]
  cases e <;>
    simp [errMessage, Option.map_eq_none, List.getElem?_eq_none_iff]

/-- C10: `ParseErr::handle` discards the result of every write to standard
error and standard output: the sequence of effects it performs does not
depend on which writes succeed, and under the offending-index precondition
the trace ends with `exit 1` — in particular even when every write fails. -/
theorem handle_exits_one_despite_write_failures (e : ParseErr)
    (arguments : List Str) (h : idxOk e arguments) :
    (∀ wr₁ wr₂ : Nat → Bool,
        ((handle e arguments wr₁).1).map effectShape =
          ((handle e arguments wr₂).1).map effectShape) ∧
      ((handle e arguments (fun _ => false)).1).getLast? =
        some (Effect.Exit 1) := by
  obtain ⟨m, hm⟩ := errMessage_of_idxOk e arguments h
  constructor
  · intro wr₁ wr₂
    simp [handle, hm, effectShape]
  · simp [handle, hm]

/-- Witness for C10 at a concrete error and argument slice. -/
theorem handle_exits_one_despite_write_failures_witness :
    (∀ wr₁ wr₂ : Nat → Bool,
        ((handle ParseErr.NoArguments [] wr₁).1).map effectShape =
          ((handle ParseErr.NoArguments [] wr₂).1).map effectShape) ∧
      ((handle ParseErr.NoArguments [] (fun _ => false)).1).getLast? =
        some (Effect.Exit 1) :=
  handle_exits_one_despite_write_failures ParseErr.NoArguments []
    (by simp [idxOk])

/-- C5: every `FileErr` converts, via the `From` instance, into the
`ParseErr.File` variant, and the fatal handler on the converted value never
panics and terminates the process with exit code 1, the same path as every
other bad-configuration error. -/
theorem fromFileErr_gives_File_and_exits_one (ferr : FileErr)
    (arguments : List Str) (wr : Nat → Bool) :
    fromFileErr ferr = ParseErr.File ferr ∧
      (handle (fromFileErr ferr) arguments wr).2 = false ∧
      ((handle (fromFileErr ferr) arguments wr).1).getLast? =
        some (Effect.Exit 1) := by
  refine ⟨rfl, ?_, ?_⟩ <;> simp [handle, errMessage, fromFileErr]

/-- C3: every file-accessor failure is one of exactly three kinds — open,
read or write — each carrying the file path and the underlying I/O error,
and the `Display` rendering contains both the path and the I/O error. -/
theorem fileErr_kinds_and_display (ferr : FileErr) :
    ((∃ p c, ferr = FileErr.Open p c) ∨ (∃ p c, ferr = FileErr.Read p c) ∨
      (∃ p c, ferr = FileErr.Write p c)) ∧
      fileErrPath ferr <:+: fileErrDisplay ferr ∧
      fileErrCause ferr <:+: fileErrDisplay ferr := by
  cases ferr with
  | Open p c =>
      refine ⟨Or.inl ⟨p, c, rfl⟩,
        ⟨"unable to open ".toList ++ ['"'], '"' :: ": ".toList ++ c, ?_⟩,
        ⟨"unable to open ".toList ++ pathDebug p ++ ": ".toList, [], ?_⟩⟩ <;>
      simp [fileErrDisplay, fileErrPath, fileErrCause, pathDebug]
  | Read p c =>
      refine ⟨Or.inr (Or.inl ⟨p, c, rfl⟩),
        ⟨"unable to read ".toList ++ ['"'], '"' :: ": ".toList ++ c, ?_⟩,
        ⟨"unable to read ".toList ++ pathDebug p ++ ": ".toList, [], ?_⟩⟩ <;>
      simp [fileErrDisplay, fileErrPath, fileErrCause, pathDebug]
  | Write p c =>
      refine ⟨Or.inr (Or.inr ⟨p, c, rfl⟩),
        ⟨"unable to write ".toList ++ ['"'], '"' :: ": ".toList ++ c, ?_⟩,
        ⟨"unable to write ".toList ++ pathDebug p ++ ": ".toList, [], ?_⟩⟩ <;>
      simp [fileErrDisplay, fileErrPath, fileErrCause, pathDebug]

/-- `InputIteratorErr` (src/input_iterator/mod.rs, lines 13-16): the error the
`InputIterator` may possibly encounter with reading from the unprocessed
file, tagged with the file path and the underlying I/O error. -/
inductive InputIteratorErr where
  | FileRead (path : Str) (cause : Str)

/-- C4: when the input iterator's underlying source cannot be read, the
failure it reports is a read error carrying the file path and the underlying
I/O error, and this is the only error kind the input iterator can report
(there is no per-record error variant). -/
theorem inputIteratorErr_only_file_read (e : InputIteratorErr) :
    ∃ path cause, e = InputIteratorErr.FileRead path cause := by
  cases e with
  | FileRead path cause => exact ⟨path, cause, rfl⟩

/-- C6: each `ParseErr` variant that refers to a specific offending argument
carries the context `handle` renders into its message — the offending
argument's index for `DelayNaN`, `MaxArgsNaN`, `MemInvalid`,
`InvalidArgument` and `TimeoutNaN` (whose message contains the argument at
that index of the slice), or the offending value itself for `JobsNaN`,
`NonTerminated` and `RedirFile` (whose message contains that value). -/
theorem parseErr_message_contains_carried_context (arguments : List Str) :
    (∀ index a, arguments[index]? = some a →
      (∃ m, errMessage (ParseErr.DelayNaN index) arguments = some m ∧ a <:+: m) ∧
      (∃ m, errMessage (ParseErr.MaxArgsNaN index) arguments = some m ∧ a <:+: m) ∧
      (∃ m, errMessage (ParseErr.MemInvalid index) arguments = some m ∧ a <:+: m) ∧
      (∃ m, errMessage (ParseErr.InvalidArgument index) arguments = some m ∧ a <:+: m) ∧
      (∃ m, errMessage (ParseErr.TimeoutNaN index) arguments = some m ∧ a <:+: m)) ∧
    (∀ value,
      ∃ m, errMessage (ParseErr.JobsNaN value) arguments = some m ∧ value <:+: m) ∧
    (∀ command,
      ∃ m, errMessage (ParseErr.NonTerminated command) arguments = some m ∧
        command <:+: m) ∧
    (∀ path,
      ∃ m, errMessage (ParseErr.RedirFile path) arguments = some m ∧ path <:+: m) := by
  refine ⟨fun index a h => ⟨?_, ?_, ?_, ?_, ?_⟩, fun value => ?_, fun command => ?_,
    fun path => ?_⟩
  · exact ⟨_, by simp [errMessage, h],
      ⟨"delay parameter, '".toList, "', is not a number.\n".toList, rfl⟩⟩
  · exact ⟨_, by simp [errMessage, h],
      ⟨"groups parameter, '".toList, "', is not a number.\n".toList, rfl⟩⟩
  · exact ⟨_, by simp [errMessage, h],
      ⟨"invalid memory value: ".toList, ['\n'], rfl⟩⟩
  · exact ⟨_, by simp [errMessage, h],
      ⟨"invalid argument: ".toList, ['\n'], rfl⟩⟩
  · exact ⟨_, by simp [errMessage, h],
      ⟨"invalid timeout value: ".toList, ['\n'], rfl⟩⟩
  · exact ⟨_, rfl,
      ⟨"jobs parameter, '".toList, "', is not a number.\n".toList, rfl⟩⟩
  · exact ⟨_, rfl,
      ⟨"command is not properly terminated:\n  $ ".toList,
        "\nTip: Try using the --quote parameter to escape your command\n".toList, rfl⟩⟩
  · exact ⟨_, rfl,
      ⟨"an error occurred while redirecting file: ".toList ++ ['"'], ['"', '\n'],
        by simp [pathDebug]⟩⟩

/-- Witness for C6 at a concrete argument slice and index. -/
theorem parseErr_message_contains_carried_context_witness :
    ∃ m, errMessage (ParseErr.DelayNaN 0) ["abc".toList] = some m ∧
      "abc".toList <:+: m :=
  ((parseErr_message_contains_carried_context ["abc".toList]).1 0 "abc".toList
    (by simp)).1

/-- The nine configuration-error categories the design document enumerates:
delay-not-a-number, jobs-not-a-number, timeout-not-a-number,
memory-value-invalid, missing required value, unterminated quoted command,
no input given, invalid flag, redirection-file error. -/
inductive SpecCategory where
  | delayNotANumber
  | jobsNotANumber
  | timeoutNotANumber
  | memoryValueInvalid
  | missingRequiredValue
  | unterminatedQuotedCommand
  | noInputGiven
  | invalidFlag
  | redirectionFileError
deriving DecidableEq

/-- The spec category each `ParseErr` variant reports. The `File` variant
(the file-accessor error) and `MaxArgsNaN` (groups-not-a-number) are not in
the spec's nine-item list: `none`. The seven `...NoValue` variants all report
a missing required value, each for a different parameter. -/
def specCategory : ParseErr → Option SpecCategory
  | .DelayNaN _ => some .delayNotANumber
  | .JobsNaN _ => some .jobsNotANumber
  | .TimeoutNaN _ => some .timeoutNotANumber
  | .MemInvalid _ => some .memoryValueInvalid
  | .DelayNoValue => some .missingRequiredValue
  | .JoblogNoValue => some .missingRequiredValue
  | .JobsNoValue => some .missingRequiredValue
  | .MaxArgsNoValue => some .missingRequiredValue
  | .MemNoValue => some .missingRequiredValue
  | .TimeoutNoValue => some .missingRequiredValue
  | .WorkDirNoValue => some .missingRequiredValue
  | .NonTerminated _ => some .unterminatedQuotedCommand
  | .NoArguments => some .noInputGiven
  | .InvalidArgument _ => some .invalidFlag
  | .RedirFile _ => some .redirectionFileError
  | .File _ => none
  | .MaxArgsNaN _ => none

/-- The constructor tag of a `ParseErr` value. -/
def ctorIdx : ParseErr → Nat
  | .DelayNaN _ => 0
  | .JobsNaN _ => 1
  | .MaxArgsNaN _ => 2
  | .MemInvalid _ => 3
  | .InvalidArgument _ => 4
  | .TimeoutNaN _ => 5
  | .NonTerminated _ => 6
  | .RedirFile _ => 7
  | .File _ => 8
  | .DelayNoValue => 9
  | .JoblogNoValue => 10
  | .JobsNoValue => 11
  | .MaxArgsNoValue => 12
  | .MemNoValue => 13
  | .NoArguments => 14
  | .TimeoutNoValue => 15
  | .WorkDirNoValue => 16

/-- Recover the constructor tag from a rendered message: each parameterised
message is recognised by its static leading text, each parameterless message
by its full text. Used to show distinct variants render distinct messages. -/
def classify (m : Str) : Nat :=
  if "delay parameter, '".toList <+: m then 0
  else if "jobs parameter, '".toList <+: m then 1
  else if "groups parameter, '".toList <+: m then 2
  else if "invalid memory value: ".toList <+: m then 3
  else if "invalid argument: ".toList <+: m then 4
  else if "invalid timeout value: ".toList <+: m then 5
  else if "command is not properly terminated:\n  $ ".toList <+: m then 6
  else if "an error occurred while redirecting file: ".toList <+: m then 7
  else if "unable to ".toList <+: m then 8
  else if m = "no delay parameter was defined.\n".toList then 9
  else if m = "no joblog parameter was defined.\n".toList then 10
  else if m = "no jobs parameter was defined.\n".toList then 11
  else if m = "no groups parameter was defined.\n".toList then 12
  else if m = "no memory parameter was defined.\n".toList then 13
  else if m = "no input arguments were given.\n".toList then 14
  else if m = "no timeout parameter was defined.\n".toList then 15
  else if m = "no workdir parameter was defined.\n".toList then 16
  else 17

/-- A prefix of `s` is a prefix of `s ++ t`. -/
theorem prefixExtend {p s : Str} (t : Str) (h : p <+: s) : p <+: s ++ t :=
  h.trans (List.prefix_append s t)

/-- When neither of `p` and `s` is a prefix of the other, `p` is not a prefix
of `s ++ t`, whatever `t` holds. -/
theorem notPrefixAppend {p s : Str} (t : Str) (h1 : ¬ p <+: s)
    (h2 : ¬ s <+: p) : ¬ p <+: s ++ t := fun hp =>
  (List.prefix_or_prefix_of_prefix hp (List.prefix_append s t)).elim h1 h2

/-- Each rendered message identifies the variant that produced it: `classify`
recovers the constructor tag from the message, whatever the offending
arguments, values, paths and I/O errors spliced into it were. -/
theorem classify_errMessage (e : ParseErr) (arguments : List Str) (m : Str)
    (hm : errMessage e arguments = some m) : classify m = ctorIdx e := by
  cases e with
  | DelayNaN index =>
      simp only [errMessage, Option.map_eq_some'] at hm
      obtain ⟨a, -, rfl⟩ := hm
      rw [List.append_assoc]
      unfold classify
      rw [if_pos (List.prefix_append _ _)]
      rfl
  | JobsNaN value =>
      simp only [errMessage, Option.some.injEq] at hm
      subst hm
      rw [List.append_assoc]
      unfold classify
      rw [if_neg (notPrefixAppend _ (by decide) (by decide)),
        if_pos (List.prefix_append _ _)]
      rfl
  | MaxArgsNaN index =>
      simp only [errMessage, Option.map_eq_some'] at hm
      obtain ⟨a, -, rfl⟩ := hm
      rw [List.append_assoc]
      unfold classify
      rw [if_neg (notPrefixAppend _ (by decide) (by decide)),
        if_neg (notPrefixAppend _ (by decide) (by decide)),
        if_pos (List.prefix_append _ _)]
      rfl
  | MemInvalid index =>
      simp only [errMessage, Option.map_eq_some'] at hm
      obtain ⟨a, -, rfl⟩ := hm
      rw [List.append_assoc]
      unfold classify
      rw [if_neg (notPrefixAppend _ (by decide) (by decide)),
        if_neg (notPrefixAppend _ (by decide) (by decide)),
        if_neg (notPrefixAppend _ (by decide) (by decide)),
        if_pos (List.prefix_append _ _)]
      rfl
  | InvalidArgument index =>
      simp only [errMessage, Option.map_eq_some'] at hm
      obtain ⟨a, -, rfl⟩ := hm
      rw [List.append_assoc]
      unfold classify
      rw [if_neg (notPrefixAppend _ (by decide) (by decide)),
        if_neg (notPrefixAppend _ (by decide) (by decide)),
        if_neg (notPrefixAppend _ (by decide) (by decide)),
        if_neg (notPrefixAppend _ (by decide) (by decide)),
        if_pos (List.prefix_append _ _)]
      rfl
  | TimeoutNaN index =>
      simp only [errMessage, Option.map_eq_some'] at hm
      obtain ⟨a, -, rfl⟩ := hm
      rw [List.append_assoc]
      unfold classify
      rw [if_neg (notPrefixAppend _ (by decide) (by decide)),
        if_neg (notPrefixAppend _ (by decide) (by decide)),
        if_neg (notPrefixAppend _ (by decide) (by decide)),
        if_neg (notPrefixAppend _ (by decide) (by decide)),
        if_neg (notPrefixAppend _ (by decide) (by decide)),
        if_pos (List.prefix_append _ _)]
      rfl
  | NonTerminated command =>
      simp only [errMessage, Option.some.injEq] at hm
      subst hm
      rw [List.append_assoc]
      unfold classify
      rw [if_neg (notPrefixAppend _ (by decide) (by decide)),
        if_neg (notPrefixAppend _ (by decide) (by decide)),
        if_neg (notPrefixAppend _ (by decide) (by decide)),
        if_neg (notPrefixAppend _ (by decide) (by decide)),
        if_neg (notPrefixAppend _ (by decide) (by decide)),
        if_neg (notPrefixAppend _ (by decide) (by decide)),
        if_pos (List.prefix_append _ _)]
      rfl
  | RedirFile path =>
      simp only [errMessage, Option.some.injEq] at hm
      subst hm
      rw [List.append_assoc]
      unfold classify
      rw [if_neg (notPrefixAppend _ (by decide) (by decide)),
        if_neg (notPrefixAppend _ (by decide) (by decide)),
        if_neg (notPrefixAppend _ (by decide) (by decide)),
        if_neg (notPrefixAppend _ (by decide) (by decide)),
        if_neg (notPrefixAppend _ (by decide) (by decide)),
        if_neg (notPrefixAppend _ (by decide) (by decide)),
        if_neg (notPrefixAppend _ (by decide) (by decide)),
        if_pos (List.prefix_append _ _)]
      rfl
  | File ferr =>
      simp only [errMessage, Option.some.injEq] at hm
      subst hm
      cases ferr <;>
        · simp only [fileErrDisplay, List.append_assoc]
          unfold classify
          rw [if_neg (notPrefixAppend _ (by decide) (by decide)),
            if_neg (notPrefixAppend _ (by decide) (by decide)),
            if_neg (notPrefixAppend _ (by decide) (by decide)),
            if_neg (notPrefixAppend _ (by decide) (by decide)),
            if_neg (notPrefixAppend _ (by decide) (by decide)),
            if_neg (notPrefixAppend _ (by decide) (by decide)),
            if_neg (notPrefixAppend _ (by decide) (by decide)),
            if_neg (notPrefixAppend _ (by decide) (by decide)),
            if_pos (prefixExtend _ (by decide))]
          rfl
  | DelayNoValue =>
      simp only [errMessage, Option.some.injEq] at hm
      subst hm
      decide
  | JoblogNoValue =>
      simp only [errMessage, Option.some.injEq] at hm
      subst hm
      decide
  | JobsNoValue =>
      simp only [errMessage, Option.some.injEq] at hm
      subst hm
      decide
  | MaxArgsNoValue =>
      simp only [errMessage, Option.some.injEq] at hm
      subst hm
      decide
  | MemNoValue =>
      simp only [errMessage, Option.some.injEq] at hm
      subst hm
      decide
  | NoArguments =>
      simp only [errMessage, Option.some.injEq] at hm
      subst hm
      decide
  | TimeoutNoValue =>
      simp only [errMessage, Option.some.injEq] at hm
      subst hm
      decide
  | WorkDirNoValue =>
      simp only [errMessage, Option.some.injEq] at hm
      subst hm
      decide

/-- C2: every configuration-error category the spec enumerates is realised by
a `ParseErr` variant (and no variant realises two categories, `specCategory`
being a function), and the fatal handler renders a distinct message for each
variant: two values of distinct constructors never render the same message,
whatever argument slices they are handled against. -/
theorem spec_categories_and_distinct_messages :
    (∀ c : SpecCategory, ∃ e : ParseErr, specCategory e = some c) ∧
    (∀ (e₁ e₂ : ParseErr) (arguments₁ arguments₂ : List Str) (m₁ m₂ : Str),
      errMessage e₁ arguments₁ = some m₁ → errMessage e₂ arguments₂ = some m₂ →
      ctorIdx e₁ ≠ ctorIdx e₂ → m₁ ≠ m₂) := by
  constructor
  · intro c
    cases c with
    | delayNotANumber => exact ⟨ParseErr.DelayNaN 0, rfl⟩
    | jobsNotANumber => exact ⟨ParseErr.JobsNaN [], rfl⟩
    | timeoutNotANumber => exact ⟨ParseErr.TimeoutNaN 0, rfl⟩
    | memoryValueInvalid => exact ⟨ParseErr.MemInvalid 0, rfl⟩
    | missingRequiredValue => exact ⟨ParseErr.DelayNoValue, rfl⟩
    | unterminatedQuotedCommand => exact ⟨ParseErr.NonTerminated [], rfl⟩
    | noInputGiven => exact ⟨ParseErr.NoArguments, rfl⟩
    | invalidFlag => exact ⟨ParseErr.InvalidArgument 0, rfl⟩
    | redirectionFileError => exact ⟨ParseErr.RedirFile [], rfl⟩
  · intro e₁ e₂ arguments₁ arguments₂ m₁ m₂ h₁ h₂ hne heq
    apply hne
    rw [← classify_errMessage e₁ arguments₁ m₁ h₁,
      ← classify_errMessage e₂ arguments₂ m₂ h₂, heq]

/-- Witness for C2 at two concrete errors: the delay message and the jobs
message for the same offending text differ. -/
theorem spec_categories_and_distinct_messages_witness :
    "delay parameter, '".toList ++ "x".toList ++ "', is not a number.\n".toList ≠
      "jobs parameter, '".toList ++ "x".toList ++ "', is not a number.\n".toList :=
  spec_categories_and_distinct_messages.2 (ParseErr.DelayNaN 0)
    (ParseErr.JobsNaN "x".toList) ["x".toList] [] _ _ (by simp [errMessage]) rfl
    (by decide)

/-- Modelled from the spec: the state behind `InputsLock`
(src/input_iterator/mod.rs re-exports it from `lock.rs`, which is not among
the repository's files) — a shared, mutually-exclusive cursor over the input
source: the input records and the monotonically advancing claim position.
Mutual exclusion makes each claim atomic, so every concurrent run is a
sequence of claims. -/
structure InputsLock where
  inputs : List Str
  pos : Nat

/-- Modelled from the spec: `next_batch n` returns the next up-to-`n` records
and the index of the first, or signals exhaustion (`none`); the cursor
advances by the number of records claimed. -/
def nextBatch (st : InputsLock) (n : Nat) : Option (Nat × List Str) × InputsLock :=
  if st.pos < st.inputs.length then
    let batch := (st.inputs.drop st.pos).take n
    (some (st.pos, batch), { st with pos := st.pos + batch.length })
  else (none, st)

/-- Modelled from the spec: one run of concurrent workers over the lock. The
interleaving is the order in which the workers' atomic claims hit the lock:
each element of `sched` is one claim, the claiming worker and the batch size
it requests. Returns every assignment made — (worker, index of the first
record, records) — and the final lock state. -/
def runClaims (sched : List (Nat × Nat)) (st : InputsLock) :
    List (Nat × Nat × List Str) × InputsLock :=
  match sched with
  | [] => ([], st)
  | (w, n) :: rest =>
      match nextBatch st n with
      | (none, st') => runClaims rest st'
      | (some (first, batch), st') =>
          ((w, first, batch) :: (runClaims rest st').1, (runClaims rest st').2)

/-- The lock state after one successful claim of batch size `n`. -/
def advance (st : InputsLock) (n : Nat) : InputsLock :=
  { st with pos := st.pos + ((st.inputs.drop st.pos).take n).length }

/-- Unfolding `runClaims` on a claim made before exhaustion. -/
theorem runClaims_cons_pos (w n : Nat) (rest : List (Nat × Nat))
    (st : InputsLock) (h : st.pos < st.inputs.length) :
    runClaims ((w, n) :: rest) st =
      ((w, st.pos, (st.inputs.drop st.pos).take n) ::
          (runClaims rest (advance st n)).1,
        (runClaims rest (advance st n)).2) := by
  simp [runClaims, nextBatch, advance, h]

/-- Unfolding `runClaims` on a claim made at exhaustion. -/
theorem runClaims_cons_neg (w n : Nat) (rest : List (Nat × Nat))
    (st : InputsLock) (h : ¬ st.pos < st.inputs.length) :
    runClaims ((w, n) :: rest) st = runClaims rest st := by
  simp [runClaims, nextBatch, h]

/-- `runClaims` never touches the inputs. -/
theorem runClaims_inputs (sched : List (Nat × Nat)) (st : InputsLock) :
    (runClaims sched st).2.inputs = st.inputs := by
  induction sched generalizing st with
  | nil => rfl
  | cons c rest ih =>
      obtain ⟨w, n⟩ := c
      by_cases h : st.pos < st.inputs.length
      · rw [runClaims_cons_pos w n rest st h]
        exact ih (advance st n)
      · rw [runClaims_cons_neg w n rest st h]
        exact ih st

/-- The cursor only advances. -/
theorem runClaims_pos_mono (sched : List (Nat × Nat)) (st : InputsLock) :
    st.pos ≤ (runClaims sched st).2.pos := by
  induction sched generalizing st with
  | nil => exact Nat.le_refl _
  | cons c rest ih =>
      obtain ⟨w, n⟩ := c
      by_cases h : st.pos < st.inputs.length
      · rw [runClaims_cons_pos w n rest st h]
        exact Nat.le_trans (Nat.le_add_right _ _) (ih (advance st n))
      · rw [runClaims_cons_neg w n rest st h]
        exact ih st

/-- The cursor never passes the end of the inputs. -/
theorem runClaims_pos_le (sched : List (Nat × Nat)) (st : InputsLock)
    (h0 : st.pos ≤ st.inputs.length) :
    (runClaims sched st).2.pos ≤ st.inputs.length := by
  induction sched generalizing st with
  | nil => exact h0
  | cons c rest ih =>
      obtain ⟨w, n⟩ := c
      by_cases h : st.pos < st.inputs.length
      · rw [runClaims_cons_pos w n rest st h]
        have hlen : (advance st n).pos ≤ (advance st n).inputs.length := by
          simp only [advance, List.length_take, List.length_drop]
          omega
        simpa [advance] using ih (advance st n) hlen
      · rw [runClaims_cons_neg w n rest st h]
        exact ih st h0

/-- Every assignment's record range lies between the starting cursor and the
final cursor. -/
theorem runClaims_ranges (sched : List (Nat × Nat)) (st : InputsLock) :
    ∀ a ∈ (runClaims sched st).1,
      st.pos ≤ a.2.1 ∧ a.2.1 + a.2.2.length ≤ (runClaims sched st).2.pos := by
  induction sched generalizing st with
  | nil => intro a ha; cases ha
  | cons c rest ih =>
      obtain ⟨w, n⟩ := c
      by_cases h : st.pos < st.inputs.length
      · rw [runClaims_cons_pos w n rest st h]
        intro a ha
        rcases List.mem_cons.mp ha with rfl | ha
        · refine ⟨Nat.le_refl _, ?_⟩
          have := runClaims_pos_mono rest (advance st n)
          simpa [advance] using this
        · have hr := ih (advance st n) a ha
          refine ⟨Nat.le_trans ?_ hr.1, hr.2⟩
          simp [advance]
      · rw [runClaims_cons_neg w n rest st h]
        exact ih st

/-- Assignments are handed out at strictly advancing positions: each one's
range ends before the next one's begins. -/
theorem runClaims_ordered (sched : List (Nat × Nat)) (st : InputsLock) :
    List.Pairwise (fun a b => a.2.1 + a.2.2.length ≤ b.2.1)
      (runClaims sched st).1 := by
  induction sched generalizing st with
  | nil => exact List.Pairwise.nil
  | cons c rest ih =>
      obtain ⟨w, n⟩ := c
      by_cases h : st.pos < st.inputs.length
      · rw [runClaims_cons_pos w n rest st h]
        refine List.Pairwise.cons (fun b hb => ?_) (ih (advance st n))
        have := (runClaims_ranges rest (advance st n) b hb).1
        simpa [advance] using this
      · rw [runClaims_cons_neg w n rest st h]
        exact ih st

/-- The records handed out, in claim order, are exactly the slice of the
inputs between the starting and the final cursor. -/
theorem runClaims_flatten (sched : List (Nat × Nat)) (st : InputsLock) :
    (((runClaims sched st).1).map (fun a => a.2.2)).flatten =
      (st.inputs.drop st.pos).take ((runClaims sched st).2.pos - st.pos) := by
  induction sched generalizing st with
  | nil => simp [runClaims]
  | cons c rest ih =>
      obtain ⟨w, n⟩ := c
      by_cases h : st.pos < st.inputs.length
      · rw [runClaims_cons_pos w n rest st h]
        simp only [List.map_cons, List.flatten_cons]
        rw [ih (advance st n)]
        have hfin : (advance st n).pos ≤ (runClaims rest (advance st n)).2.pos :=
          runClaims_pos_mono rest (advance st n)
        have hsplit : (runClaims rest (advance st n)).2.pos - st.pos =
            ((st.inputs.drop st.pos).take n).length +
              ((runClaims rest (advance st n)).2.pos - (advance st n).pos) := by
          simp only [advance] at hfin ⊢
          omega
        rw [hsplit, List.take_add]
        congr 1
        · rw [List.length_take]
          rcases Nat.le_total n (st.inputs.drop st.pos).length with hn | hn
          · rw [Nat.min_eq_left hn]
          · rw [Nat.min_eq_right hn, List.take_length,
              List.take_of_length_le hn]
        · simp only [advance, List.drop_drop]
      · rw [runClaims_cons_neg w n rest st h]
        exact ih st

/-- C7 (modelled from the spec: `lock.rs`, the worker pool and the collector
are not among the repository's files): for every run over N input records —
every interleaving being a schedule of atomic claims through the mutually
exclusive `InputsLock` — no two claims receive the same record (the index
ranges of any two assignments are disjoint), and once the run ends with the
source exhausted no record is skipped: the batches handed out concatenate to
exactly the input list, so exactly N records are handed to jobs and one
`JobResult` per record — exactly N — reaches the result collector, whatever
the number of concurrent workers in the schedule. -/
theorem inputsLock_no_duplication_no_loss (sched : List (Nat × Nat))
    (inputs : List Str)
    (hexh : inputs.length ≤ (runClaims sched ⟨inputs, 0⟩).2.pos) :
    List.Pairwise
      (fun a b => ∀ i : Nat, ¬ (a.2.1 ≤ i ∧ i < a.2.1 + a.2.2.length ∧
        b.2.1 ≤ i ∧ i < b.2.1 + b.2.2.length))
      (runClaims sched ⟨inputs, 0⟩).1 ∧
    (((runClaims sched ⟨inputs, 0⟩).1).map (fun a => a.2.2)).flatten = inputs ∧
    (((runClaims sched ⟨inputs, 0⟩).1).map (fun a => a.2.2.length)).sum =
      inputs.length := by
  have hle : (runClaims sched ⟨inputs, 0⟩).2.pos ≤ inputs.length :=
    runClaims_pos_le sched ⟨inputs, 0⟩ (Nat.zero_le _)
  have hpos : (runClaims sched ⟨inputs, 0⟩).2.pos = inputs.length :=
    Nat.le_antisymm hle hexh
  have hflat : (((runClaims sched ⟨inputs, 0⟩).1).map (fun a => a.2.2)).flatten =
      inputs := by
    have := runClaims_flatten sched ⟨inputs, 0⟩
    rw [hpos] at this
    simpa using this
  refine ⟨?_, hflat, ?_⟩
  · exact (runClaims_ordered sched ⟨inputs, 0⟩).imp (fun hab i => by omega)
  · have h2 := congrArg List.length hflat
    rw [List.length_flatten, List.map_map] at h2
    simpa [Function.comp] using h2

/-- Witness for C7: two workers drain three records in batches of two. -/
theorem inputsLock_no_duplication_no_loss_witness :
    List.Pairwise
      (fun a b => ∀ i : Nat, ¬ (a.2.1 ≤ i ∧ i < a.2.1 + a.2.2.length ∧
        b.2.1 ≤ i ∧ i < b.2.1 + b.2.2.length))
      (runClaims [(0, 2), (1, 2)]
        ⟨["a".toList, "b".toList, "c".toList], 0⟩).1 ∧
    (((runClaims [(0, 2), (1, 2)]
        ⟨["a".toList, "b".toList, "c".toList], 0⟩).1).map
          (fun a => a.2.2)).flatten =
      ["a".toList, "b".toList, "c".toList] ∧
    (((runClaims [(0, 2), (1, 2)]
        ⟨["a".toList, "b".toList, "c".toList], 0⟩).1).map
          (fun a => a.2.2.length)).sum =
      ["a".toList, "b".toList, "c".toList].length :=
  inputsLock_no_duplication_no_loss [(0, 2), (1, 2)]
    ["a".toList, "b".toList, "c".toList] (by decide)

/-- A successful lookup finds a pair of the list. -/
theorem lookup_mem {c : Nat} {o : Str} :
    ∀ {l : List (Nat × Str)}, l.lookup c = some o → (c, o) ∈ l := by
  intro l
  induction l with
  | nil => intro h; cases h
  | cons kb es ih =>
      obtain ⟨k, b⟩ := kb
      intro h
      rw [List.lookup_cons] at h
      by_cases hk : c = k
      · subst hk
        simp at h
        subst h
        exact List.mem_cons_self _ _
      · have hbeq : (c == k) = false := beq_eq_false_iff_ne.mpr hk
        rw [hbeq] at h
        exact List.mem_cons_of_mem _ (ih h)

/-- A pair of the list makes its key's lookup succeed. -/
theorem lookup_isSome_of_mem {c : Nat} {o : Str} :
    ∀ {l : List (Nat × Str)}, (c, o) ∈ l → (l.lookup c).isSome := by
  intro l
  induction l with
  | nil => intro h; cases h
  | cons kb es ih =>
      obtain ⟨k, b⟩ := kb
      intro h
      rw [List.lookup_cons]
      by_cases hk : c = k
      · subst hk; simp
      · have hbeq : (c == k) = false := beq_eq_false_iff_ne.mpr hk
        rw [hbeq]
        rcases List.mem_cons.mp h with heq | hmem
        · cases heq; exact absurd rfl hk
        · exact ih hmem

/-- Removing the looked-up pair and putting it in front permutes the list:
`lookup` returns the value of the first pair with the key, and `eraseP`
removes exactly that pair. -/
theorem lookup_eraseP_perm {c : Nat} {o : Str} :
    ∀ {l : List (Nat × Str)}, l.lookup c = some o →
      l.Perm ((c, o) :: l.eraseP (fun p => p.1 == c)) := by
  intro l
  induction l with
  | nil => intro h; cases h
  | cons kb es ih =>
      obtain ⟨k, b⟩ := kb
      intro h
      rw [List.lookup_cons] at h
      by_cases hk : c = k
      · subst hk
        simp at h
        subst h
        simp [List.eraseP_cons]
      · have hbeq : (c == k) = false := beq_eq_false_iff_ne.mpr hk
        rw [hbeq] at h
        have hbeq2 : (k == c) = false := beq_eq_false_iff_ne.mpr (Ne.symm hk)
        rw [List.eraseP_cons]
        simp only [hbeq2]
        exact ((ih h).cons (k, b)).trans (List.Perm.swap _ _ _)

/-- A successful lookup makes `eraseP` on the key strictly shorten the list. -/
theorem eraseP_shortens_of_lookup {c : Nat} {o : Str} {l : List (Nat × Str)}
    (h : l.lookup c = some o) :
    (l.eraseP (fun p => p.1 == c)).length < l.length := by
  have hm := lookup_mem h
  have hlen := List.length_eraseP_of_mem (p := fun q => q.1 == c) hm (by simp)
  have hpos : 0 < l.length := List.length_pos.mpr (List.ne_nil_of_mem hm)
  omega

/-- Modelled from the spec: the state of the input-order result collector
(`receive_messages` is re-exported by src/execute/mod.rs from `receive.rs`,
which is not among the repository's files): the sequence number of the next
job to flush, the reordering buffer of results that arrived early, and the
results flushed to the shared output stream so far, in flush order. -/
structure Collector where
  counter : Nat
  buffer : List (Nat × Str)
  flushed : List (Nat × Str)

/-- Modelled from the spec: flush buffered results strictly in increasing
sequence order — repeatedly, while the buffer holds the result numbered
`counter`, flush it and advance the counter. -/
def drain (st : Collector) : Collector :=
  match hm : st.buffer.lookup st.counter with
  | some o =>
      drain { counter := st.counter + 1,
              buffer := st.buffer.eraseP (fun p => p.1 == st.counter),
              flushed := st.flushed ++ [(st.counter, o)] }
  | none => st
termination_by st.buffer.length
decreasing_by exact eraseP_shortens_of_lookup hm

/-- Modelled from the spec: one completed job's result arrives at the
collector: it is buffered by sequence number and everything now flushable is
flushed in order. -/
def rstep (st : Collector) (msg : Nat × Str) : Collector :=
  drain { st with buffer := msg :: st.buffer }

/-- Modelled from the spec: the collector consumes the completed jobs'
results in their completion order, starting before job 0 with nothing
buffered or flushed. -/
def receiveInOrder (arr : List (Nat × Str)) : Collector :=
  arr.foldl rstep ⟨0, [], []⟩

/-- `drain` on a collector whose buffer misses the counter does nothing. -/
theorem drain_none {st : Collector}
    (h : st.buffer.lookup st.counter = none) : drain st = st := by
  rw [drain, h]

/-- `drain` on a collector whose buffer holds the counter flushes it. -/
theorem drain_some {st : Collector} {o : Str}
    (h : st.buffer.lookup st.counter = some o) :
    drain st = drain { counter := st.counter + 1,
                       buffer := st.buffer.eraseP (fun p => p.1 == st.counter),
                       flushed := st.flushed ++ [(st.counter, o)] } := by
  conv_lhs => rw [drain, h]

/-- Draining preserves the collector's invariant: the flushed list is the
results of jobs `0, ..., counter - 1` in order, the flushed and buffered
results together are only moved around (a permutation), every buffered
result is the arrived job's own output, and afterwards the buffer does not
hold the counter. -/
theorem drain_spec (out : Nat → Str) : ∀ (n : Nat) (st : Collector),
    st.buffer.length ≤ n →
    st.flushed = (List.range st.counter).map (fun i => (i, out i)) →
    (∀ p ∈ st.buffer, p.2 = out p.1) →
    (drain st).flushed =
        (List.range (drain st).counter).map (fun i => (i, out i)) ∧
      ((drain st).flushed ++ (drain st).buffer).Perm
        (st.flushed ++ st.buffer) ∧
      (∀ p ∈ (drain st).buffer, p.2 = out p.1) ∧
      (drain st).buffer.lookup (drain st).counter = none := by
  intro n
  induction n with
  | zero =>
      intro st hlen hfl hbuf
      have hb : st.buffer = [] := by
        cases hb : st.buffer with
        | nil => rfl
        | cons a es => rw [hb] at hlen; simp at hlen
      have hnone : st.buffer.lookup st.counter = none := by rw [hb]; rfl
      rw [drain_none hnone]
      exact ⟨hfl, List.Perm.refl _, hbuf, hnone⟩
  | succ n ih =>
      intro st hlen hfl hbuf
      cases hm : st.buffer.lookup st.counter with
      | none =>
          rw [drain_none hm]
          exact ⟨hfl, List.Perm.refl _, hbuf, hm⟩
      | some o =>
          rw [drain_some hm]
          have hmem : (st.counter, o) ∈ st.buffer := lookup_mem hm
          have ho : o = out st.counter := hbuf _ hmem
          have hshort := eraseP_shortens_of_lookup hm
          obtain ⟨h1, h2, h3, h4⟩ := ih
            { counter := st.counter + 1,
              buffer := st.buffer.eraseP (fun p => p.1 == st.counter),
              flushed := st.flushed ++ [(st.counter, o)] }
            (by simpa using Nat.lt_succ_iff.mp (Nat.lt_of_lt_of_le hshort hlen))
            (by simp only [hfl, List.range_succ, List.map_append,
                  List.map_cons, List.map_nil, ho])
            (fun p hp => hbuf p ((List.eraseP_sublist _).subset hp))
          refine ⟨h1, h2.trans ?_, h3, h4⟩
          have hperm := (lookup_eraseP_perm hm).symm
          show (st.flushed ++ [(st.counter, o)] ++
              st.buffer.eraseP (fun p => p.1 == st.counter)).Perm
            (st.flushed ++ st.buffer)
          rw [List.append_assoc, List.singleton_append]
          exact List.Perm.append_left _ hperm

/-- Feeding the collector a list of arrivals preserves the invariant and
only moves results around. -/
theorem foldl_rstep_spec (out : Nat → Str) :
    ∀ (arr : List (Nat × Str)) (st : Collector),
    st.flushed = (List.range st.counter).map (fun i => (i, out i)) →
    (∀ p ∈ st.buffer, p.2 = out p.1) →
    (∀ p ∈ arr, p.2 = out p.1) →
    st.buffer.lookup st.counter = none →
    (arr.foldl rstep st).flushed =
        (List.range (arr.foldl rstep st).counter).map (fun i => (i, out i)) ∧
      ((arr.foldl rstep st).flushed ++ (arr.foldl rstep st).buffer).Perm
        ((st.flushed ++ st.buffer) ++ arr) ∧
      (∀ p ∈ (arr.foldl rstep st).buffer, p.2 = out p.1) ∧
      (arr.foldl rstep st).buffer.lookup (arr.foldl rstep st).counter =
        none := by
  intro arr
  induction arr with
  | nil =>
      intro st hfl hbuf _ hnone
      exact ⟨hfl, by simp, hbuf, hnone⟩
  | cons msg rest ih =>
      intro st hfl hbuf harr hnone
      rw [List.foldl_cons]
      have hstep := drain_spec out (msg :: st.buffer).length
        { st with buffer := msg :: st.buffer } (Nat.le_refl _) hfl
        (by
          intro p hp
          rcases List.mem_cons.mp hp with rfl | hp
          · exact harr p (List.mem_cons_self _ _)
          · exact hbuf p hp)
      obtain ⟨h1, h2, h3, h4⟩ := hstep
      obtain ⟨g1, g2, g3, g4⟩ := ih (rstep st msg) h1 h3
        (fun p hp => harr p (List.mem_cons_of_mem _ hp)) h4
      refine ⟨g1, g2.trans ?_, g3, g4⟩
      have hmid : ((rstep st msg).flushed ++ (rstep st msg).buffer).Perm
          ((st.flushed ++ st.buffer) ++ [msg]) := by
        refine h2.trans ?_
        show (st.flushed ++ (msg :: st.buffer)).Perm
          ((st.flushed ++ st.buffer) ++ [msg])
        exact List.perm_middle.trans (List.perm_append_singleton _ _).symm
      refine (List.Perm.append_right rest hmid).trans ?_
      rw [List.append_assoc, List.singleton_append]

/-- C8 (modelled from the spec: `receive.rs` is not among the repository's
files): in input-order mode, for any interleaving of job completion times —
any arrival order `arr` that is a permutation of the N jobs' results — the
collector ends having flushed exactly the results of jobs `0, ..., N-1` in
increasing sequence order with an empty reordering buffer, so the bytes
emitted to the shared output stream are identical, byte for byte, to the
output of running all jobs strictly sequentially in input order. -/
theorem receive_input_order_equals_sequential (out : Nat → Str) (N : Nat)
    (arr : List (Nat × Str))
    (hperm : arr.Perm ((List.range N).map (fun i => (i, out i)))) :
    (receiveInOrder arr).counter = N ∧
      (receiveInOrder arr).buffer = [] ∧
      (receiveInOrder arr).flushed =
        (List.range N).map (fun i => (i, out i)) ∧
      (((receiveInOrder arr).flushed).map (fun p => p.2)).flatten =
        ((List.range N).map out).flatten := by
  have harr : ∀ p ∈ arr, p.2 = out p.1 := by
    intro p hp
    have hm := hperm.subset hp
    simp only [List.mem_map] at hm
    obtain ⟨i, -, hi⟩ := hm
    rw [← hi]
  obtain ⟨h1, h2, h3, h4⟩ := foldl_rstep_spec out arr ⟨0, [], []⟩ (by simp)
    (by simp) harr rfl
  have hrw : List.foldl rstep ⟨0, [], []⟩ arr = receiveInOrder arr := rfl
  rw [hrw] at h1 h2 h3 h4
  have hperm2 : ((receiveInOrder arr).flushed ++
      (receiveInOrder arr).buffer).Perm
      ((List.range N).map (fun i => (i, out i))) := by
    refine List.Perm.trans ?_ hperm
    simpa using h2
  have hlen : (receiveInOrder arr).counter +
      (receiveInOrder arr).buffer.length = N := by
    have hl := hperm2.length_eq
    rw [List.length_append] at hl
    have : (receiveInOrder arr).flushed.length = (receiveInOrder arr).counter := by
      rw [show (receiveInOrder arr).flushed =
        (List.range (receiveInOrder arr).counter).map
          (fun i => (i, out i)) from h1]
      simp
    rw [this] at hl
    simpa using hl
  have hge : N ≤ (receiveInOrder arr).counter := by
    by_contra hlt
    push_neg at hlt
    have hmem : ((receiveInOrder arr).counter,
        out (receiveInOrder arr).counter) ∈
        (List.range N).map (fun i => (i, out i)) := by
      simp only [List.mem_map]
      exact ⟨(receiveInOrder arr).counter, List.mem_range.mpr hlt, rfl⟩
    have hmem2 := hperm2.symm.subset hmem
    rcases List.mem_append.mp hmem2 with hf | hb
    · rw [h1] at hf
      simp only [List.mem_map] at hf
      obtain ⟨i, hi, heq⟩ := hf
      have : i = (receiveInOrder arr).counter := congrArg Prod.fst heq
      rw [this] at hi
      exact absurd (List.mem_range.mp hi) (Nat.lt_irrefl _)
    · have hsome := lookup_isSome_of_mem hb
      rw [h4] at hsome
      cases hsome
  have hc : (receiveInOrder arr).counter = N := by omega
  have hbuf : (receiveInOrder arr).buffer = [] := by
    rw [hc] at hlen
    exact List.length_eq_zero.mp (by omega)
  have hfl : (receiveInOrder arr).flushed =
      (List.range N).map (fun i => (i, out i)) := by
    rw [h1, hc]
  refine ⟨hc, hbuf, hfl, ?_⟩
  rw [hfl, List.map_map]
  rfl

/-- Witness for C8: three results arriving out of order flush in order. -/
theorem receive_input_order_equals_sequential_witness :
    (receiveInOrder [(1, ['a']), (0, []), (2, ['a', 'a'])]).counter = 3 ∧
      (receiveInOrder [(1, ['a']), (0, []), (2, ['a', 'a'])]).buffer = [] ∧
      (receiveInOrder [(1, ['a']), (0, []), (2, ['a', 'a'])]).flushed =
        (List.range 3).map (fun i => (i, List.replicate i 'a')) ∧
      (((receiveInOrder [(1, ['a']), (0, []), (2, ['a', 'a'])]).flushed).map
          (fun p => p.2)).flatten =
        ((List.range 3).map (fun i => List.replicate i 'a')).flatten :=
  receive_input_order_equals_sequential (fun i => List.replicate i 'a') 3
    [(1, ['a']), (0, []), (2, ['a', 'a'])] (by decide)

end Parallel
